import Mathlib

/-!
Verification of the pretzel asynchronous-framework core against its design
specification.  Each Python construct the claims depend on is shallowly
embedded as an executable Lean definition translated from the source files
(`monad/result.py`, `monad/cont.py`, `monad/async.py`, `remoting/hub.py`,
`core/core.py`, `state_machine.py`, `stream/buffered.py`); theorems about
those definitions settle the specification claims.
-/

set_option autoImplicit false

namespace Pretzel

/-- Python exceptions that occur in the embedded fragments.  An exception is
identified by its class and message, which is all the claims depend on. -/
inductive Exc where
  | valueError (msg : String)
  | indexError
  | attributeError (msg : String)
  | runtimeError (msg : String)
  | canceledError (msg : String)
  deriving DecidableEq

/-- `Result` from `monad/result.py`: the pair `(value, error)` where exactly one
side is set (`from_value` stores `(v, None)`, `from_error`/`from_exception`
store `(None, exc_info)`).  The captured traceback context is irrelevant to the
claims, so an error is represented by the exception alone. -/
inductive Result (V : Type) where
  | value (v : V)
  | error (e : Exc)
  deriving DecidableEq

/-- `Result.bind` (`monad/result.py` lines 80-88): if the error slot is empty,
apply `func` to the value (the `try/except` that folds an exception raised by
`func` into an error `Result` is reflected by `func` returning `Result`);
otherwise `return self` — `func` is never applied on the error side. -/
def Result.bind {V W : Type} (r : Result V) (func : V → Result W) : Result W :=
  match r with
  | .value v => func v
  | .error e => .error e

/-- `Result.unit` / `Result.from_value`. -/
def Result.unit {V : Type} (v : V) : Result V := .value v

/-- `Cont` from `monad/cont.py`: `ContT {run :: (a -> r) -> r}`. -/
structure Cont (R A : Type) where
  run : (A → R) → R

/-- `Cont.unit` (`monad/cont.py` line 43): `Cont(lambda ret: ret(val))`. -/
def Cont.unit {R A : Type} (val : A) : Cont R A :=
  ⟨fun ret => ret val⟩

/-- `Cont.bind` (`monad/cont.py` lines 45-47):
`Cont(lambda ret: self.run(lambda val: func(val).__monad__().run(ret)))`.
Note that `func` is applied to `val` unconditionally, whatever `val` is. -/
def Cont.bind {R A B : Type} (m : Cont R A) (func : A → Cont R B) : Cont R B :=
  ⟨fun ret => m.run (fun val => (func val).run ret)⟩

/-- One invocation of `done_ret` from `Cont.__or__` (`monad/cont.py` lines
29-32) on the mutable cell `done` and the list of values forwarded to `ret`
so far: `if not done[0]: done[0] = True; ret(val)`. -/
def orStep {A : Type} (st : Bool × List A) (val : A) : Bool × List A :=
  if st.1 then st else (true, st.2 ++ [val])

/-- The values `Cont.__or__`'s `run` forwards to `ret`, as a function of the
sequence of completion values the two raced continuations deliver to
`done_ret`, in arrival order.  `done` starts out `[False]` and no value has
been forwarded yet. -/
def orRets {A : Type} (arrivals : List A) : List A :=
  (arrivals.foldl orStep (false, [])).2

/-- `Address` from `remoting/hub.py`: a tuple of opaque segments (segments are
modelled as naturals). -/
abbrev Address := List Nat

/-- `Address.route` (`remoting/hub.py` lines 89-90): `Address(self + addr)`. -/
def Address.route (a b : Address) : Address := a ++ b

/-- `Address.unroute` (`remoting/hub.py` lines 92-95): raise `ValueError` on an
empty address, otherwise drop the trailing segment. -/
def Address.unroute (a : Address) : Except Exc Address :=
  match a with
  | [] => .error (.valueError "empty address cannot be unrouted")
  | _ => .ok a.dropLast

/-- `Address.__eq__` (`remoting/hub.py` lines 97-98): `self[-1] == addr[-1]`;
indexing an empty tuple raises `IndexError`. -/
def Address.eq (a b : Address) : Except Exc Bool :=
  match a.getLast?, b.getLast? with
  | some x, some y => .ok (decide (x = y))
  | _, _ => .error .indexError

/-- A hub message handler (`remoting/hub.py`): `(msg, dst, src) -> bool`.
`src` is `None` or a `Sender`, and a `Sender` is determined by its address, so
`src` is modelled as `Option Address`.  A handler that raises is modelled by
returning an exception. -/
abbrev Handler (M : Type) := M → Address → Option Address → Except Exc Bool

/-- A hub handler table (`Hub.handlers`): a dict keyed by `Address`.  Since
`Address.__hash__`/`__eq__` use only the trailing segment, the dict behaves
as an association list whose key comparison is trailing-segment equality.
Keys are never empty addresses (`Hub.addr` mints one-segment addresses). -/
abbrev HubTable (M : Type) := List (Address × Handler M)

/-- Key comparison used by the handler dict: `Address.__eq__` restricted to
the nonempty keys that actually occur. -/
def addrBeq (a b : Address) : Bool :=
  match a.getLast?, b.getLast? with
  | some x, some y => x == y
  | _, _ => false

/-- `self.handlers.get(dst, None)`. -/
def HubTable.get {M : Type} (H : HubTable M) (dst : Address) : Option (Handler M) :=
  match H with
  | [] => none
  | (k, h) :: rest => if addrBeq k dst then some h else HubTable.get rest dst

/-- `self.handlers.pop(dst)` (the table after removal). -/
def HubTable.pop {M : Type} (H : HubTable M) (dst : Address) : HubTable M :=
  match H with
  | [] => []
  | (k, h) :: rest => if addrBeq k dst then rest else (k, h) :: HubTable.pop rest dst

/-- `Hub.try_send` (`remoting/hub.py` lines 51-58).  Returns the result
(`False`: no handler; `True`: dispatched; exception: the handler raised — in
which case the `pop` in the `if not handler(...)` line is never reached) and
the handler table afterwards. -/
def HubTable.trySend {M : Type} (H : HubTable M) (msg : M) (dst : Address)
    (src : Option Address) : Except Exc Bool × HubTable M :=
  match HubTable.get H dst with
  | none => (.ok false, H)
  | some handler =>
    match handler msg dst src with
    | .error e => (.error e, H)
    | .ok true => (.ok true, H)
    | .ok false => (.ok true, HubTable.pop H dst)

/-- `Hub.send` (`remoting/hub.py` lines 47-49): `try_send` or raise
`ValueError`. -/
def HubTable.send {M : Type} (H : HubTable M) (msg : M) (dst : Address)
    (src : Option Address) : Except Exc Unit × HubTable M :=
  match HubTable.trySend H msg dst src with
  | (.ok false, H') => (.error (.valueError "no receiver for address"), H')
  | (.ok true, H') => (.ok (), H')
  | (.error e, H') => (.error e, H')

/-- The `once_handler` wrapper built by `Hub.recv_once` (`remoting/hub.py`
lines 65-69): run the handler, then return `False` (unsubscribe). -/
def onceWrap {M : Type} (handler : Handler M) : Handler M :=
  fun msg dst src =>
    match handler msg dst src with
    | .error e => .error e
    | .ok _ => .ok false

/-- `Sender.__call__` (`remoting/hub.py` lines 125-135) for a sender whose hub
table is `H` and whose address is `dstAddr`, when `hub.addr()` mints the fresh
one-segment address `(n,)`:
register a one-shot reply handler at `(n,)` via `recv_once`/`recv` (`recv`
raises `ValueError` if an entry with an equal key is present — a freshly
created closure never equals a stored handler), then `send(msg, self.addr,
Sender(hub, (n,)))`; if the send raises, `unrecv` pops the reply handler and
the exception is re-raised.  Returns the outcome and the final table. -/
def senderCall {M : Type} (H : HubTable M) (n : Nat) (dstAddr : Address)
    (msg : M) (replyHandler : Handler M) : Except Exc Unit × HubTable M :=
  let reply : Address := [n]
  match HubTable.get H reply with
  | some _ => (.error (.valueError "multiple receive handlers for address"), H)
  | none =>
    let H1 := H ++ [(reply, onceWrap replyHandler)]
    match HubTable.send H1 msg dstAddr (some reply) with
    | (.ok _, H2) => (.ok (), H2)
    | (.error e, H2) => (.error e, HubTable.pop H2 reply)

/-- A concrete always-raising handler, used to exercise the faulty-handler
path of `Hub.try_send`. -/
def faultyHandler : Handler Nat := fun _ _ _ => .error (.runtimeError "fault")

/-- A hub table holding `faultyHandler` at address `(1,)`. -/
def faultyTable : HubTable Nat := [([1], faultyHandler)]

/-- `TimeQueue.dispose` (`core/core.py` lines 311-315): swap the heap out,
then invoke every snapped entry's `ret` with the cancellation error.  Entries
are `(when, uid, ret)`; callbacks are opaque tags `κ`.  Returns the list of
callbacks invoked (each exactly once, with the error) and the new heap. -/
def timeQueueDispose {κ : Type} (queueField : List (Nat × Nat × κ)) :
    List κ × List (Nat × Nat × κ) :=
  let queue := queueField
  let queueField' : List (Nat × Nat × κ) := []
  (queue.map (fun e => e.2.2), queueField')

/-- `SchedQueue.dispose` (`core/core.py` lines 443-448):
`rets, self.rets = self.rets, []` snaps the list and empties the field, but
the loop `for ret in self.rets: ret(error)` iterates `self.rets` — the just
emptied field — rather than the local `rets`, so it invokes nothing.  Returns
the list of callbacks invoked and the new field value. -/
def schedQueueDispose {κ : Type} (retsField : List κ) : List κ × List κ :=
  let rets := retsField
  let retsField' : List κ := []
  let invoked := retsField'.map (fun ret => ret)
  have _ := rets
  (invoked, retsField')

/-- `ProcQueue.dispose` (`core/core.py` lines 524-531):
`pids, self.pids = self.pids, {}` snaps the map and empties the field, but the
loop `for ret in self.pids.values(): ret(error)` iterates `self.pids` — the
just emptied field — so it invokes nothing.  Returns the callbacks invoked
and the new field value. -/
def procQueueDispose {κ : Type} (pidsField : List (Nat × κ)) :
    List κ × List (Nat × κ) :=
  let pids := pidsField
  let pidsField' : List (Nat × κ) := []
  let invoked := pidsField'.map (fun e => e.2)
  have _ := pids
  (invoked, pidsField')

/-- The attribute names the `Result` class exposes (methods defined in
`monad/result.py` plus those inherited from `Monad` in `monad/monad.py`;
double-underscore names omitted).  Note it contains `Sequence` — capitalised,
as defined in `monad/monad.py` — and no lowercase `sequence`. -/
def resultClassAttrs : List String :=
  ["pair", "from_value", "from_error", "from_current_error", "from_exception",
   "error", "value", "trace", "unit", "bind",
   "proxy", "zero", "plus", "then", "then_val", "map_val", "join",
   "Map", "Filter", "Fold", "Sequence", "Lift", "LiftFunc", "LiftFuncResult",
   "Ap"]

/-- Python attribute lookup `getattr(Result, name)` succeeding or not. -/
def resultHasAttr (name : String) : Bool := resultClassAttrs.contains name

/-- `Monad.Sequence` (`monad/monad.py` lines 134-144) specialised to the
`Result` monad: `reduce(chain, monads, unit(()))` with
`chain(mvals, mval) = mvals.bind(lambda vals: mval.bind(lambda val:
unit(vals + (val,))))`.  This is the aggregate `async_all`'s completion step
intends to build: first `Error` wins, else `Value` of all values in order. -/
def Result.SequenceList {V : Type} (rs : List (Result V)) : Result (List V) :=
  rs.foldl
    (fun mvals mval =>
      mvals.bind (fun vals => mval.bind (fun val => Result.unit (vals ++ [val]))))
    (Result.unit [])

/-- One completion delivered to `async_all`'s `cont_ret` (`monad/async.py`
lines 107-113) for child `index` with result `val`: store the result in
`ctx[index]`, decrement `ctx[-1]`, and when the counter hits zero resolve with
`ret(Result.sequence(ctx[:-1]))` — an attribute lookup of `sequence` on the
`Result` class, which raises `AttributeError` when absent; for a child that
completes synchronously the exception is caught by `async_block` and becomes
the continuation's resolution.  State: (slots, counter, resolutions so far). -/
def asyncAllStep {V : Type}
    (st : List (Option (Result V)) × Nat × List (Result (List V)))
    (arrival : Nat × Result V) :
    List (Option (Result V)) × Nat × List (Result (List V)) :=
  let slots := st.1.set arrival.1 (some arrival.2)
  let count := st.2.1 - 1
  if count = 0 then
    let res := slots.map (fun s => s.getD (Result.error (.runtimeError "unset slot")))
    let emit :=
      if resultHasAttr "sequence" then Result.SequenceList res
      else Result.error (.attributeError "type object Result has no attribute sequence")
    (slots, count, st.2.2 ++ [emit])
  else (slots, count, st.2.2)

/-- `async_all(conts)` (`monad/async.py` lines 92-117) for already-resolved
children (each child's `run` invokes `cont_ret` synchronously inside the
registration loop, in index order), returning the list of resolutions the
continuation delivers to `ret`.  The empty case returns
`Cont.unit(Result.unit(tuple()))`, which resolves with `Value(())`.  (This is
the `async_all` the package exports: `monad/__init__.py` imports `.cont`
before `.async`, so the `async.py` definition shadows the `cont.py` one.) -/
def asyncAllSyncRun {V : Type} (vals : List (Result V)) : List (Result (List V)) :=
  if vals.isEmpty then [Result.value []]
  else
    let init : List (Option (Result V)) × Nat × List (Result (List V)) :=
      (vals.map (fun _ => none), vals.length, [])
    ((List.range vals.length).foldl
      (fun st i => asyncAllStep st (i, vals.getD i (Result.error (.runtimeError "absent"))))
      init).2.2

/-- `StateMachine.compile_graph` (`state_machine.py` lines 42-63): compute the
maximal mentioned state, OR together `1 << dst` for every edge out of each
source, and lay the masks out as a dense sequence indexed by source state.
(The `array` typecode branch only selects the storage width; for every graph
in this repository the masks fit the chosen width, so the stored values are
the masks themselves, here a `List Nat`.) -/
def compileGraph (tree : List (Nat × List Nat)) : List Nat :=
  let maxState := tree.foldl (fun m e => e.2.foldl max (max m e.1)) 0
  (List.range (maxState + 1)).map (fun s =>
    tree.foldl
      (fun acc e =>
        if e.1 = s then e.2.foldl (fun a d => a ||| (1 <<< d)) acc else acc)
      0)

/-- A `StateMachine` instance (`state_machine.py`): compiled graph plus the
current state (initially 0). -/
structure SM where
  graph : List Nat
  state : Nat
  deriving DecidableEq

/-- `StateMachine.__call__` (`state_machine.py` lines 16-24): if the bit for
`target` is set in the current state's mask, return `False` when `target` is
the current state, else move to `target` and return `True`; an unset bit
raises `ValueError` before the state is assigned, leaving it unchanged. -/
def SM.call (sm : SM) (target : Nat) : Except Exc Bool × SM :=
  match sm.graph[sm.state]? with
  | none => (.error .indexError, sm)
  | some mask =>
    if mask &&& (1 <<< target) ≠ 0 then
      if sm.state = target then (.ok false, sm)
      else (.ok true, { sm with state := target })
    else (.error (.valueError "invalid state transition"), sm)

/-- `Core.STATE_GRPAH` (`core/core.py` lines 45-49): IDLE=0, EXEC=1, DISP=2. -/
def coreGraph : List Nat := compileGraph [(0, [0, 1, 2]), (1, [0, 2]), (2, [2])]

/-- `Connection.STATE_GRAPH` (`remoting/conn/conn.py` lines 27-32):
INIT=0, CONNECTING=1, CONNECTED=2, DISPOSED=3. -/
def connGraph : List Nat :=
  compileGraph [(0, [1, 3]), (1, [2, 3]), (2, [3]), (3, [3])]

/-- `Process.STATE_GRAPH` (`process.py` lines 61-66): NOT_STARTED=0,
FORKING=1, RUNNING=2, DISPOSED=3. -/
def procGraph : List Nat :=
  compileGraph [(0, [3, 1]), (1, [3, 2]), (2, [3]), (3, [3])]

/-- `Buffer` from `stream/buffered.py` (lines 185-276): a bytes FIFO rope.
`chunks` is the deque of byte chunks (bytes modelled as naturals), `offset`
the number of head-chunk bytes already consumed, `chunksSize` the
`chunks_size` field (total bytes across all chunks). -/
structure Buffer where
  offset : Nat
  chunks : List (List Nat)
  chunksSize : Nat
  deriving DecidableEq

/-- `Buffer.__init__`. -/
def Buffer.empty : Buffer := ⟨0, [], 0⟩

/-- `Buffer.__len__`: `chunks_size - offset`. -/
def Buffer.bufLen (b : Buffer) : Nat := b.chunksSize - b.offset

/-- The logical byte content of a buffer: all chunks joined, minus the
already-consumed head offset. -/
def Buffer.contents (b : Buffer) : List Nat := b.chunks.flatten.drop b.offset

/-- `Buffer.enqueue` (lines 217-222): append `data` unless it is empty. -/
def Buffer.enqueue (b : Buffer) (data : List Nat) : Buffer :=
  if data.isEmpty then b
  else { b with chunks := b.chunks ++ [data],
                chunksSize := b.chunksSize + data.length }

/-- The chunk-popping loop shared by `Buffer.slice` and `Buffer.dequeue`:
`while self.chunks: if data_size >= size: break; chunk = popleft(); ...`.
`acc` is the running `data_size`; returns (popped chunks in order, remaining
chunks, final `data_size`). -/
def popChunks : List (List Nat) → Nat → Nat → List (List Nat) × List (List Nat) × Nat
  | [], _, acc => ([], [], acc)
  | c :: rest, size, acc =>
    if size ≤ acc then ([], c :: rest, acc)
    else
      let r := popChunks rest size (acc + c.length)
      (c :: r.1, r.2.1, r.2.2)

/-- Python's falsy-default idiom `x = arg or dflt` for integer arguments:
both `None` and `0` select the default. -/
def pyOr (arg : Option Nat) (dflt : Nat) : Nat :=
  match arg with
  | none => dflt
  | some 0 => dflt
  | some n => n

/-- Python slice `l[a:b]` for `a ≤ b` (indices clamped, as in Python). -/
def pySlice (l : List Nat) (a b : Nat) : List Nat := (l.drop a).take (b - a)

/-- `Buffer.slice` (lines 193-215): pop just enough head chunks to cover
`offset + size` bytes, re-queue them merged as a single head chunk, and
return the requested span.  Returns the span and the buffer afterwards. -/
def Buffer.slice (b : Buffer) (sizeArg offsetArg : Option Nat) :
    List Nat × Buffer :=
  let offs := pyOr offsetArg 0
  let size0 := pyOr sizeArg b.bufLen
  let size := size0 + b.offset + offs
  let res := popChunks b.chunks size 0
  let data := res.1.flatten
  (pySlice data (b.offset + offs) size, { b with chunks := data :: res.2.1 })

/-- `Buffer.dequeue` (lines 224-263): remove (up to) `size` logical bytes.
The three exit branches mirror the source: exact chunk boundary (no
re-queue), split-with-copy when the new offset would pass the middle of the
last popped chunk (`offset << 1 > len(chunk)`), else re-queue the last chunk
whole and only advance `offset`.  `chunks_size` is updated by
`+= len(chunk) - data_size`, rendered in `Nat` by adding before subtracting
(the overall value is never negative).  The `returns` flag only suppresses
the Python return value and is omitted.  Returns the dequeued bytes and the
buffer afterwards. -/
def Buffer.dequeue (b : Buffer) (sizeArg : Option Nat) : List Nat × Buffer :=
  let size0 := pyOr sizeArg b.bufLen
  if b.chunks.isEmpty then ([], b)
  else
    let size := min (size0 + b.offset) b.chunksSize
    let res := popChunks b.chunks size 0
    let dataSize := res.2.2
    let data := pySlice res.1.flatten b.offset size
    if dataSize = size then
      (data, { offset := 0, chunks := res.2.1,
               chunksSize := b.chunksSize - dataSize })
    else
      let chunk := res.1.getLast?.getD []
      let offInto := chunk.length - (dataSize - size)
      if chunk.length < 2 * offInto then
        let chunk2 := chunk.drop offInto
        (data, { offset := 0, chunks := chunk2 :: res.2.1,
                 chunksSize := b.chunksSize + chunk2.length - dataSize })
      else
        (data, { offset := offInto, chunks := chunk :: res.2.1,
                 chunksSize := b.chunksSize + chunk.length - dataSize })

/-- Well-formedness of a `Buffer`, maintained by every operation:
`chunks_size` counts all chunk bytes, every queued chunk is nonempty, and
`offset` points inside the head chunk (or is 0 for an empty deque). -/
def Buffer.wf (b : Buffer) : Prop :=
  b.chunksSize = b.chunks.flatten.length ∧
  (∀ c ∈ b.chunks, c ≠ []) ∧
  (b.chunks = [] → b.offset = 0) ∧
  (∀ c l, b.chunks = c :: l → b.offset < c.length)

/-- The `flush` loop of `BufferedStream.__init__` (`stream/buffered.py` lines
28-38): `while self.write_buffer: block = self.write_buffer.slice(bufsize);
self.write_buffer.dequeue((yield self.base.write(block)), False)`.  The base
consuming `n` bytes of the offered `block` means the first `n` bytes of
`block` reach the base; `writes` lists the byte counts successive base writes
report.  Returns (all bytes observed by the base, in order, and the final
buffer). -/
def flushLoop (bufsize : Nat) : Buffer → List Nat → List Nat × Buffer
  | b, [] => ([], b)
  | b, n :: rest =>
    if b.chunks.isEmpty then ([], b)
    else
      let s := b.slice (some bufsize) none
      let d := s.2.dequeue (some n)
      let r := flushLoop bufsize d.2 rest
      (s.1.take n ++ r.1, r.2)

/-- The write counts a base stream actually reports while `flush` runs to
completion: each count is positive (`File.write` returns
`os.write(fd, data)` on a nonempty `data`, which is ≥ 1 or raises) and at
most the length of the offered block, and the counts drain the buffer before
they run out. -/
def validWrites (bufsize : Nat) : Buffer → List Nat → Bool
  | b, [] => b.chunks.isEmpty
  | b, n :: rest =>
    b.chunks.isEmpty ||
      (decide (1 ≤ n) &&
       decide (n ≤ (b.slice (some bufsize) none).1.length) &&
       validWrites bufsize ((b.slice (some bufsize) none).2.dequeue (some n)).2 rest)

/-- The write buffer of a fresh buffered stream after enqueueing `payloads`
in submission order (each `write`/`write_schedule` enqueues its payload). -/
def payloadsBuffer (payloads : List (List Nat)) : Buffer :=
  payloads.foldl Buffer.enqueue Buffer.empty

/-- `BufferedStream.size_struct.pack` for format `>I` (big-endian 4-byte
unsigned); the Python call raises for arguments ≥ 2^32. -/
def pack32 (n : Nat) : List Nat :=
  [n / 2 ^ 24 % 256, n / 2 ^ 16 % 256, n / 2 ^ 8 % 256, n % 256]

/-- `size_struct.unpack` for `>I`: big-endian recomposition. -/
def unpack32 (l : List Nat) : Nat := l.foldl (fun acc x => acc * 256 + x) 0

/-- The refill loop of `read_until_size` (`stream/buffered.py` lines 49-58):
`while len(self.read_buffer) < size:
read_buffer.enqueue(yield base.read(bufsize))`, then
`read_buffer.dequeue(size)`.  `src` lists the chunks successive `base.read`
calls deliver; `none` models the source running dry first (the real stream
would raise `BrokenPipeError`).  Returns (bytes read, buffer and undelivered
source afterwards). -/
def readUntilSizeGo (size : Nat) : Buffer → List (List Nat) →
    Option (List Nat × Buffer × List (List Nat))
  | b, [] =>
    if b.bufLen < size then none
    else some ((b.dequeue (some size)).1, (b.dequeue (some size)).2, [])
  | b, c :: rest =>
    if b.bufLen < size then readUntilSizeGo size (b.enqueue c) rest
    else some ((b.dequeue (some size)).1, (b.dequeue (some size)).2, c :: rest)

/-- `read_until_size(size)` including the `if not size: do_return(b'')`
guard. -/
def readUntilSize (b : Buffer) (src : List (List Nat)) (size : Nat) :
    Option (List Nat × Buffer × List (List Nat)) :=
  if size = 0 then some ([], b, src) else readUntilSizeGo size b src

/-- `read_bytes` (`stream/buffered.py` lines 130-135): read the 4-byte
big-endian length prefix (`size_struct.size = 4`), unpack it, then read
exactly that many bytes. -/
def readBytes (b : Buffer) (src : List (List Nat)) :
    Option (List Nat × Buffer × List (List Nat)) :=
  match readUntilSize b src 4 with
  | none => none
  | some r => readUntilSize r.2.1 r.2.2 (unpack32 r.1)

/-- `write_bytes` (`stream/buffered.py` lines 137-141):
`write_schedule(size_struct.pack(len(bytes)))` then `write_schedule(bytes)` —
two enqueues on the write buffer. -/
def writeBytes (b : Buffer) (data : List Nat) : Buffer :=
  (b.enqueue (pack32 data.length)).enqueue data

end Pretzel

namespace Pretzel

theorem orRets_nil {A : Type} : orRets ([] : List A) = [] := rfl

theorem foldl_orStep_done {A : Type} (l : List A) (out : List A) :
    l.foldl orStep (true, out) = (true, out) := by
  induction l with
  | nil => rfl
  | cons x xs ih => simpa [orStep] using ih

/-- C5: `or(a, b)` calls its `ret` exactly once, with the first completion to
arrive at `done_ret`; every later completion is discarded without calling
`ret`.  With no completions `ret` is never called, so racing `c` against a
never-resolving continuation forwards exactly `c`'s own (single) completion:
it behaves identically to `c`. -/
theorem or_first_wins :
    (∀ (A : Type) (v : A) (rest : List A), orRets (v :: rest) = [v]) ∧
    (∀ (A : Type), orRets ([] : List A) = []) := by
  refine ⟨fun A v rest => ?_, fun A => rfl⟩
  simp [orRets, orStep, foldl_orStep_done]

/-- C3 counterexample: a continuation that completes with an `Error` result,
bound against `f := fun _ => Cont.unit (Result.value 42)`.  The claim says the
composition completes with the same `Error` without invoking `f`; in fact
`Cont.bind` hands the `Error` result to `f`, and the composition completes
with `f`'s answer `Value 42`, not the `Error`. -/
theorem cont_bind_error_counterexample :
    (Cont.bind (Cont.unit (Result.error (.runtimeError "boom") : Result Nat))
        (fun _ => Cont.unit (Result.value 42))).run (id (α := Result Nat))
      = Result.value 42 ∧
    Result.value 42 ≠ (Result.error (.runtimeError "boom") : Result Nat) := by
  exact ⟨rfl, by decide⟩

/-- C3 (amended): `Cont.bind` applies `f` to whatever value the first
continuation completes with — the Error short-circuit lives one layer down, in
`Result.bind`, which returns an `Error` result unchanged for every `f` (so `f`
is not invoked), and on `Value(v)` runs `f v`.  At the `Cont` layer,
`bind (unit v) f` runs `f v` and chains its completion to `ret`. -/
theorem bind_error_shortcircuit :
    (∀ (V W : Type) (e : Exc) (f : V → Result W),
        Result.bind (.error e) f = .error e) ∧
    (∀ (V W : Type) (v : V) (f : V → Result W), Result.bind (.value v) f = f v) ∧
    (∀ (R A B : Type) (v : A) (f : A → Cont R B) (ret : B → R),
        (Cont.bind (Cont.unit v) f).run ret = (f v).run ret) := by
  exact ⟨fun _ _ _ _ => rfl, fun _ _ _ _ => rfl, fun _ _ _ _ _ _ => rfl⟩

/-- C8 counterexample: with `a = (1,)` and the two-segment `b = (2, 3)`,
`unroute(route(a, b))` is `(1, 2)`, whose trailing segment `2` differs from
`a`'s trailing segment `1`, so Address equality rejects it: the claim fails
for multi-segment `b` because `route` appends every segment of `b` while
`unroute` pops only one. -/
theorem unroute_route_counterexample :
    Address.unroute (Address.route [1] [2, 3]) = .ok [1, 2] ∧
    Address.eq [1, 2] [1] = .ok false := by
  exact ⟨rfl, rfl⟩

/-- C8 (amended): for every address `a` with at least one segment and every
single-segment `b`, `unroute(route(a, b))` is literally `a` again (and in
particular equal to `a` under the trailing-segment equality). -/
theorem unroute_route_single (a : Address) (x : Nat) (h : a ≠ []) :
    Address.unroute (Address.route a [x]) = .ok a ∧ Address.eq a a = .ok true := by
  constructor
  · have hne : Address.route a [x] ≠ [] := by
      cases a <;> simp [Address.route]
    cases hroute : Address.route a [x] with
    | nil => exact absurd hroute hne
    | cons c cs =>
        simp only [Address.unroute, ← hroute, Address.route]
        rw [List.dropLast_concat]
  · cases hlast : a.getLast? with
    | none => exact absurd (List.getLast?_eq_none_iff.mp hlast) h
    | some y => simp [Address.eq, hlast]

/-- C8 witness: instantiation of `unroute_route_single` at `a = (5,)`,
`b = (7,)`. -/
theorem unroute_route_single_witness :
    Address.unroute (Address.route [5] [7]) = .ok [5] ∧
    Address.eq [5] [5] = .ok true :=
  unroute_route_single [5] 7 (by decide)

/-- C1: `Core.dispose` delegates to each queue's `dispose`.  `TimeQueue`'s
indeed invokes every pending callback once with the cancellation error, but
`SchedQueue.dispose` and `ProcQueue.dispose` iterate the freshly emptied
field (`self.rets` / `self.pids`) instead of the snapped copy, so a pending
callback on either queue is invoked zero times — not exactly once as the
claim states. -/
theorem dispose_skips_sched_and_proc :
    (timeQueueDispose [(0, 0, 7)]).1 = [7] ∧
    (schedQueueDispose [7]).1 = ([] : List Nat) ∧
    (procQueueDispose [(42, 7)]).1 = ([] : List Nat) :=
  ⟨rfl, rfl, rfl⟩

/-- C2: the completion step of `async_all` resolves with
`Result.sequence(ctx[:-1])`, but the `Result` class only defines `Sequence`
(capitalised, inherited from `Monad`), so the attribute lookup raises
`AttributeError`: for two already-completed children with values 1 and 2 the
continuation resolves with that `AttributeError` instead of the aggregate
`Value((1, 2))` the claim (and `monad/tests/async.py:test_all`) expects.  The
intended aggregate (`Monad.Sequence` over `Result`) would indeed be
`Value [1, 2]`, and the empty case does resolve with `Value(())`. -/
theorem async_all_sequence_attribute_error :
    resultHasAttr "Sequence" = true ∧
    resultHasAttr "sequence" = false ∧
    asyncAllSyncRun [Result.value 1, Result.value 2]
      = [Result.error (.attributeError "type object Result has no attribute sequence")] ∧
    Result.SequenceList [Result.value 1, Result.value 2] = Result.value [1, 2] ∧
    asyncAllSyncRun ([] : List (Result Nat)) = [Result.value []] :=
  ⟨rfl, rfl, rfl, rfl, rfl⟩

/-- C4 counterexample: a hub whose handler at address `(1,)` raises while
dispatching.  `send` re-raises the handler's exception, but the handler table
is unchanged and the handler is still registered at that address — the
`handlers.pop` in `try_send` sits inside `if not handler(...)` and is never
reached when the handler raises (`remoting/tests/hub.py:test_faulty_handler`
asserts exactly this: the table still has one entry after the raising send). -/
theorem faulty_handler_stays_counterexample :
    (HubTable.send faultyTable 0 [1] none).1 = .error (.runtimeError "fault") ∧
    (HubTable.send faultyTable 0 [1] none).2 = faultyTable ∧
    HubTable.get (HubTable.send faultyTable 0 [1] none).2 [1] = some faultyHandler :=
  ⟨rfl, rfl, rfl⟩

/-- C4 (amended): when the handler registered for `dst` raises, `send`
re-raises that exception to its caller and leaves the handler table exactly
as it was — the raising handler remains registered (handlers are only removed
when they return `False`, or explicitly via `unrecv`). -/
theorem faulty_handler_raises_and_stays {M : Type} (H : HubTable M) (msg : M)
    (dst : Address) (src : Option Address) (h : Handler M) (e : Exc)
    (hget : HubTable.get H dst = some h) (herr : h msg dst src = .error e) :
    HubTable.send H msg dst src = (.error e, H) := by
  simp [HubTable.send, HubTable.trySend, hget, herr]

/-- C4 witness: `faulty_handler_raises_and_stays` applied to the concrete
faulty table. -/
theorem faulty_handler_raises_and_stays_witness :
    HubTable.send faultyTable 0 [1] none
      = (.error (.runtimeError "fault"), faultyTable) :=
  faulty_handler_raises_and_stays faultyTable 0 [1] none faultyHandler
    (.runtimeError "fault") rfl rfl

theorem send_error_preserves {M : Type} (H : HubTable M) (msg : M)
    (dst : Address) (src : Option Address) (e : Exc)
    (herr : (HubTable.send H msg dst src).1 = .error e) :
    (HubTable.send H msg dst src).2 = H := by
  cases hget : HubTable.get H dst with
  | none => simp [HubTable.send, HubTable.trySend, hget]
  | some handler =>
    cases hrun : handler msg dst src with
    | error e2 => simp [HubTable.send, HubTable.trySend, hget, hrun]
    | ok b =>
      cases b
      · simp [HubTable.send, HubTable.trySend, hget, hrun] at herr
      · simp [HubTable.send, HubTable.trySend, hget, hrun] at herr

theorem pop_append_fresh {M : Type} (H : HubTable M) (n : Nat)
    (h : Handler M) (hfresh : HubTable.get H [n] = none) :
    HubTable.pop (H ++ [([n], h)]) [n] = H := by
  induction H with
  | nil => simp [HubTable.pop, addrBeq]
  | cons e rest ih =>
    rcases e with ⟨k, hk⟩
    simp only [HubTable.get] at hfresh
    by_cases hbeq : addrBeq k [n] = true
    · simp [hbeq] at hfresh
    · simp only [List.cons_append, HubTable.pop, List.append_eq]
      rw [if_neg hbeq, ih (by simpa [hbeq] using hfresh)]

/-- C9: `Sender.__call__` registers a one-shot handler at the freshly minted
reply address `(n,)` and sends with that reply address as `src`; if the send
raises, the one-shot handler is unregistered again, so the hub's handler
table ends up exactly as it was before the call. -/
theorem sender_call_rolls_back {M : Type} (H : HubTable M) (n : Nat)
    (dstAddr : Address) (msg : M) (rh : Handler M) (e : Exc)
    (hfresh : HubTable.get H [n] = none)
    (hsend : (HubTable.send (H ++ [([n], onceWrap rh)]) msg dstAddr
                (some [n])).1 = .error e) :
    senderCall H n dstAddr msg rh = (.error e, H) := by
  have hpres := send_error_preserves (H ++ [([n], onceWrap rh)]) msg dstAddr
    (some [n]) e hsend
  simp only [senderCall, hfresh]
  rcases hs : HubTable.send (H ++ [([n], onceWrap rh)]) msg dstAddr (some [n])
    with ⟨r, H2⟩
  rw [hs] at hsend hpres
  simp only at hsend hpres
  cases r with
  | ok u => simp at hsend
  | error e2 =>
    simp only [Except.error.injEq] at hsend
    subst hsend
    subst hpres
    simp [pop_append_fresh H n _ hfresh]

/-- C9 witness: a call via a sender aimed at the unregistered address `(5,)`
on an empty hub: the send raises `ValueError` and the table is rolled back to
empty. -/
theorem sender_call_rolls_back_witness :
    senderCall ([] : HubTable Nat) 1 [5] 0 (fun _ _ _ => .ok true)
      = (.error (.valueError "no receiver for address"), []) :=
  sender_call_rolls_back [] 1 [5] 0 (fun _ _ _ => .ok true)
    (.valueError "no receiver for address") rfl rfl

theorem coreGraph_eq : coreGraph = [7, 5, 4] := rfl

theorem connGraph_eq : connGraph = [10, 12, 8, 8] := rfl

theorem procGraph_eq : procGraph = [10, 12, 8, 8] := rfl

theorem two_pow_and_shift {p t : Nat} (hne : p ≠ t) : 2 ^ p &&& (1 <<< t) = 0 := by
  rw [Nat.shiftLeft_eq, one_mul, Nat.and_two_pow,
      Nat.testBit_two_pow_of_ne hne]
  simp

/-- C10: `StateMachine.__call__` either follows a permitted edge and returns
`True`, returns `False` when the target equals the current state and the
self-loop bit is set, or raises `ValueError` (or `IndexError` for a state
outside the graph) with the machine unchanged; and in the compiled Core,
Connection and Process graphs the DISPOSED state (2 resp. 3) only permits its
self-loop, so once reached no invocation can leave it. -/
theorem state_machine_call_trichotomy :
    (∀ (sm : SM) (t : Nat),
       (∃ m, sm.graph[sm.state]? = some m ∧ m &&& (1 <<< t) ≠ 0 ∧
             sm.state ≠ t ∧ SM.call sm t = (.ok true, { sm with state := t })) ∨
       (∃ m, sm.graph[sm.state]? = some m ∧ m &&& (1 <<< t) ≠ 0 ∧
             sm.state = t ∧ SM.call sm t = (.ok false, sm)) ∨
       (∃ e, SM.call sm t = (.error e, sm))) ∧
    (∀ t : Nat, (SM.call ⟨coreGraph, 2⟩ t).2 = ⟨coreGraph, 2⟩) ∧
    (∀ t : Nat, (SM.call ⟨connGraph, 3⟩ t).2 = ⟨connGraph, 3⟩) ∧
    (∀ t : Nat, (SM.call ⟨procGraph, 3⟩ t).2 = ⟨procGraph, 3⟩) := by
  have trich : ∀ (sm : SM) (t : Nat),
      (∃ m, sm.graph[sm.state]? = some m ∧ m &&& (1 <<< t) ≠ 0 ∧
            sm.state ≠ t ∧ SM.call sm t = (.ok true, { sm with state := t })) ∨
      (∃ m, sm.graph[sm.state]? = some m ∧ m &&& (1 <<< t) ≠ 0 ∧
            sm.state = t ∧ SM.call sm t = (.ok false, sm)) ∨
      (∃ e, SM.call sm t = (.error e, sm)) := by
    intro sm t
    cases hg : sm.graph[sm.state]? with
    | none => exact Or.inr (Or.inr ⟨.indexError, by simp [SM.call, hg]⟩)
    | some m =>
      by_cases hbit : m &&& (1 <<< t) ≠ 0
      · by_cases hst : sm.state = t
        · subst hst
          exact Or.inr (Or.inl ⟨m, rfl, hbit, rfl,
            by simp [SM.call, hg, hbit]⟩)
        · exact Or.inl ⟨m, rfl, hbit, hst, by simp [SM.call, hg, hbit, hst]⟩
      · have hz : m &&& (1 <<< t) = 0 := not_not.mp hbit
        exact Or.inr (Or.inr ⟨.valueError "invalid state transition",
          by simp [SM.call, hg, hz]⟩)
  have absorb : ∀ (g : List Nat) (p : Nat), g[p]? = some (2 ^ p) →
      ∀ t, (SM.call ⟨g, p⟩ t).2 = ⟨g, p⟩ := by
    intro g p hg t
    by_cases ht : p = t
    · subst ht
      have hand : 2 ^ p &&& (1 <<< p) = 2 ^ p := by
        rw [Nat.shiftLeft_eq, one_mul, Nat.and_self]
      have hne : (2 : Nat) ^ p ≠ 0 := (Nat.two_pow_pos p).ne'
      simp [SM.call, hg, hand, hne]
    · have h0 : 2 ^ p &&& (1 <<< t) = 0 := two_pow_and_shift ht
      simp [SM.call, hg, h0]
  refine ⟨trich, absorb coreGraph 2 rfl, absorb connGraph 3 rfl,
    absorb procGraph 3 rfl⟩

theorem popChunks_append (chunks : List (List Nat)) (size acc : Nat) :
    (popChunks chunks size acc).1 ++ (popChunks chunks size acc).2.1 = chunks := by
  induction chunks generalizing acc with
  | nil => simp [popChunks]
  | cons c rest ih =>
    by_cases h : size ≤ acc
    · simp [popChunks, h]
    · simp [popChunks, h, ih (acc + c.length)]

theorem popChunks_dataSize (chunks : List (List Nat)) (size acc : Nat) :
    (popChunks chunks size acc).2.2
      = acc + (popChunks chunks size acc).1.flatten.length := by
  induction chunks generalizing acc with
  | nil => simp [popChunks]
  | cons c rest ih =>
    by_cases h : size ≤ acc
    · simp [popChunks, h]
    · simp [popChunks, h, ih (acc + c.length)]
      omega

theorem popChunks_reaches (chunks : List (List Nat)) (size acc : Nat)
    (h : size ≤ acc + chunks.flatten.length) :
    size ≤ (popChunks chunks size acc).2.2 := by
  induction chunks generalizing acc with
  | nil => simpa [popChunks] using h
  | cons c rest ih =>
    by_cases hle : size ≤ acc
    · simp [popChunks, hle]
    · simp only [popChunks, if_neg hle]
      apply ih
      simp only [List.flatten_cons, List.length_append] at h
      omega

theorem popChunks_pops (c : List Nat) (rest : List (List Nat)) (size acc : Nat)
    (hlt : acc < size) :
    (popChunks (c :: rest) size acc).1 ≠ [] := by
  simp [popChunks, Nat.not_le.mpr hlt]

theorem popChunks_stop (chunks : List (List Nat)) (size acc : Nat) :
    size ≤ (popChunks chunks size acc).2.2 ∨
    (popChunks chunks size acc).2.1 = [] := by
  induction chunks generalizing acc with
  | nil => exact Or.inr rfl
  | cons c rest ih =>
    by_cases hle : size ≤ acc
    · simp [popChunks, hle]
    · simpa only [popChunks, if_neg hle] using ih (acc + c.length)

theorem popChunks_prior (chunks : List (List Nat)) (size acc : Nat)
    (h : (popChunks chunks size acc).1 ≠ []) :
    acc + (popChunks chunks size acc).1.dropLast.flatten.length < size := by
  induction chunks generalizing acc with
  | nil => simp [popChunks] at h
  | cons c rest ih =>
    by_cases hle : size ≤ acc
    · simp [popChunks, hle] at h
    · have hlt : acc < size := Nat.not_le.mp hle
      simp only [popChunks, if_neg hle] at h ⊢
      cases hp : (popChunks rest size (acc + c.length)).1 with
      | nil => simp [hp, hlt]
      | cons d ds =>
        have hne : (popChunks rest size (acc + c.length)).1 ≠ [] := by
          simp [hp]
        have hih := ih (acc + c.length) hne
        rw [hp] at hih
        simp only [hp, List.dropLast_cons₂, List.flatten_cons,
          List.length_append] at hih ⊢
        omega

theorem buffer_offset_lt (b : Buffer) (hwf : b.wf) (hc : b.chunks ≠ []) :
    b.offset < b.chunks.flatten.length := by
  obtain ⟨_, _, _, h4⟩ := hwf
  cases hcc : b.chunks with
  | nil => exact absurd hcc hc
  | cons c l =>
    have hlt := h4 c l hcc
    simp only [List.flatten_cons, List.length_append]
    omega

theorem buffer_bufLen_eq (b : Buffer) (hwf : b.wf) :
    b.bufLen = b.contents.length := by
  obtain ⟨h1, _, _, _⟩ := hwf
  simp [Buffer.bufLen, Buffer.contents, h1]

theorem pyOr_pos (n d : Nat) (hn : 1 ≤ n) : pyOr (some n) d = n := by
  cases n with
  | zero => omega
  | succ m => rfl

theorem dequeue_spec (b : Buffer) (n : Nat) (hwf : b.wf) (hn : 1 ≤ n) :
    (b.dequeue (some n)).1 = b.contents.take n ∧
    (b.dequeue (some n)).2.contents = b.contents.drop n ∧
    (b.dequeue (some n)).2.wf := by
  obtain ⟨hsz, hchunks, hnil0, hhead⟩ := id hwf
  have hpy : pyOr (some n) b.bufLen = n := pyOr_pos n _ hn
  by_cases hc : b.chunks = []
  · have hcont : b.contents = [] := by simp [Buffer.contents, hc]
    have hres : b.dequeue (some n) = ([], b) := by
      simp [Buffer.dequeue, hc]
    rw [hres]
    exact ⟨by simp [hcont], by simp [hcont], hwf⟩
  · have hisE : b.chunks.isEmpty = false := by
      simpa [List.isEmpty_iff] using hc
    set J := b.chunks.flatten with hJ
    have hoffJ : b.offset < J.length := buffer_offset_lt b hwf hc
    set size := min (n + b.offset) b.chunksSize with hsize
    have hsize_le : size ≤ J.length := by omega
    have hsize_pos : b.offset < size := by omega
    have happ := popChunks_append b.chunks size 0
    have hds := popChunks_dataSize b.chunks size 0
    have hreach := popChunks_reaches b.chunks size 0 (by rw [← hJ]; omega)
    set p := (popChunks b.chunks size 0).1 with hp
    set r := (popChunks b.chunks size 0).2.1 with hr
    set a := (popChunks b.chunks size 0).2.2 with ha
    have hda : a = p.flatten.length := by omega
    have hflat : p.flatten ++ r.flatten = J := by
      rw [← List.flatten_append, happ]
    have hpJ : p.flatten = J.take a := by
      rw [← hflat, hda, List.take_left]
    have hrJ : r.flatten = J.drop a := by
      rw [← hflat, hda, List.drop_left]
    have haJ : a ≤ J.length := by
      rw [← hflat, List.length_append]; omega
    have hdata : pySlice p.flatten b.offset size = b.contents.take n := by
      rw [hpJ]
      unfold pySlice Buffer.contents
      rw [List.drop_take, List.take_take, ← hJ]
      have hmin : min (size - b.offset) (a - b.offset) = size - b.offset := by
        omega
      rw [hmin]
      by_cases hcase : n + b.offset ≤ b.chunksSize
      · congr 1
        omega
      · have hlen : (J.drop b.offset).length = J.length - b.offset :=
          List.length_drop ..
        rw [List.take_of_length_le (by omega), List.take_of_length_le (by omega)]
    have hmemchunks : ∀ c, c ∈ p ∨ c ∈ r → c ≠ [] := by
      intro c hmem
      apply hchunks
      rw [← happ]
      rcases hmem with hm | hm
      · exact List.mem_append_left _ hm
      · exact List.mem_append_right _ hm
    by_cases heq : a = size
    · -- exact chunk boundary branch
      have hres : b.dequeue (some n)
          = (pySlice p.flatten b.offset size,
             ⟨0, r, b.chunksSize - a⟩) := by
        simp only [Buffer.dequeue, hpy, hisE, Bool.false_eq_true, if_false,
          ← hsize, ← hp, ← hr, ← ha, heq, eq_self_iff_true, if_true]
      rw [hres]
      have hdrop : r.flatten = b.contents.drop n := by
        rw [hrJ]
        unfold Buffer.contents
        rw [← hJ, List.drop_drop, heq]
        by_cases hcase : n + b.offset ≤ b.chunksSize
        · congr 1
          omega
        · rw [List.drop_eq_nil_of_le (by omega),
             List.drop_eq_nil_of_le (by omega)]
      refine ⟨hdata, hdrop, ?_, ?_, ?_, ?_⟩
      · show b.chunksSize - a = r.flatten.length
        rw [hrJ, List.length_drop]
        omega
      · intro c hcmem
        exact hmemchunks c (Or.inr hcmem)
      · intro _
        rfl
      · intro c l hcl
        have hrl : r = c :: l := hcl
        have hcmem : c ∈ r := by rw [hrl]; exact List.mem_cons_self c l
        have hcne := hmemchunks c (Or.inr hcmem)
        show 0 < c.length
        exact List.length_pos.mpr hcne
    · -- the last popped chunk is split
      have hlt : size < a := lt_of_le_of_ne hreach (Ne.symm heq)
      have hp_ne : p ≠ [] := by
        intro hnil
        rw [hnil] at hda
        simp at hda
        omega
      set chunk := p.getLast?.getD [] with hchunkdef
      have hchunkLast : chunk = p.getLast hp_ne := by
        rw [hchunkdef, List.getLast?_eq_getLast _ hp_ne]
        rfl
      have hsplitp : p.dropLast.flatten ++ chunk = p.flatten := by
        conv_rhs => rw [← List.dropLast_append_getLast hp_ne]
        rw [List.flatten_append, hchunkLast]
        simp
      set aPrev := p.dropLast.flatten.length with haPrev
      have haprev_add : aPrev + chunk.length = a := by
        rw [hda, ← hsplitp, List.length_append]
      have hprior : aPrev < size := by
        have := popChunks_prior b.chunks size 0 (by rw [← hp]; exact hp_ne)
        rw [← hp] at this
        omega
      set offInto := chunk.length - (a - size) with hoffInto
      have hoff_lt : offInto < chunk.length := by omega
      have hoff_eq : aPrev + offInto = size := by omega
      have hsz_eq : size = n + b.offset := by omega
      have hcontents2 : chunk.drop offInto ++ r.flatten = b.contents.drop n := by
        unfold Buffer.contents
        rw [← hJ, List.drop_drop]
        have hJsplit : J = (p.dropLast.flatten ++ chunk) ++ r.flatten := by
          rw [hsplitp, hflat]
        rw [hJsplit]
        rw [List.drop_append_of_le_length
          (by rw [List.length_append]; omega)]
        have harith : b.offset + n = aPrev + offInto := by omega
        rw [harith, List.drop_append]
      -- shared chunk-size arithmetic
      have hrlen : r.flatten.length = J.length - a := by
        rw [hrJ, List.length_drop]
      by_cases hmid : chunk.length < 2 * offInto
      · -- split with copy: the re-queued chunk is chunk[offInto:]
        have hres : b.dequeue (some n)
            = (pySlice p.flatten b.offset size,
               ⟨0, chunk.drop offInto :: r,
                b.chunksSize + (chunk.drop offInto).length - a⟩) := by
          simp only [Buffer.dequeue, hpy, hisE, Bool.false_eq_true, if_false,
            ← hsize, ← hp, ← hr, ← ha, if_neg heq, ← hchunkdef, ← hoffInto,
            if_pos hmid]
        rw [hres]
        have hdroplen : (chunk.drop offInto).length = a - size := by
          rw [List.length_drop]
          omega
        refine ⟨hdata, ?_, ?_, ?_, ?_, ?_⟩
        · show (chunk.drop offInto :: r).flatten.drop 0 = b.contents.drop n
          rw [List.drop_zero, List.flatten_cons, hcontents2]
        · show b.chunksSize + (chunk.drop offInto).length - a
              = (chunk.drop offInto :: r).flatten.length
          rw [List.flatten_cons, List.length_append, hdroplen, hrlen]
          omega
        · intro c hcmem
          rcases List.mem_cons.mp hcmem with hcm | hcm
          · subst hcm
            intro hnil
            rw [hnil] at hdroplen
            simp at hdroplen
            omega
          · exact hmemchunks c (Or.inr hcm)
        · intro habs
          cases habs
        · intro c l hcl
          have hcc : chunk.drop offInto :: r = c :: l := hcl
          have hc2 : c = chunk.drop offInto := by
            injection hcc with h1 _
            exact h1.symm
          rw [hc2]
          show 0 < (chunk.drop offInto).length
          rw [hdroplen]
          omega
      · -- split without copy: re-queue the chunk whole, advance offset
        have hres : b.dequeue (some n)
            = (pySlice p.flatten b.offset size,
               ⟨offInto, chunk :: r,
                b.chunksSize + chunk.length - a⟩) := by
          simp only [Buffer.dequeue, hpy, hisE, Bool.false_eq_true, if_false,
            ← hsize, ← hp, ← hr, ← ha, if_neg heq, ← hchunkdef, ← hoffInto,
            if_neg hmid]
        rw [hres]
        refine ⟨hdata, ?_, ?_, ?_, ?_, ?_⟩
        · show (chunk :: r).flatten.drop offInto = b.contents.drop n
          rw [List.flatten_cons,
            List.drop_append_of_le_length (le_of_lt hoff_lt), hcontents2]
        · show b.chunksSize + chunk.length - a = (chunk :: r).flatten.length
          rw [List.flatten_cons, List.length_append, hrlen]
          omega
        · intro c hcmem
          rcases List.mem_cons.mp hcmem with hcm | hcm
          · subst hcm
            intro hnil
            rw [hnil] at hoff_lt
            simp at hoff_lt
          · exact hmemchunks c (Or.inr hcm)
        · intro habs
          cases habs
        · intro c l hcl
          have hcc : chunk :: r = c :: l := hcl
          have hc2 : c = chunk := by
            injection hcc with h1 _
            exact h1.symm
          rw [hc2]
          show offInto < chunk.length
          exact hoff_lt

theorem slice_spec (b : Buffer) (sizeArg : Option Nat) (hwf : b.wf)
    (hc : b.chunks ≠ []) (heff : 1 ≤ pyOr sizeArg b.bufLen) :
    (b.slice sizeArg none).1 = b.contents.take (pyOr sizeArg b.bufLen) ∧
    (b.slice sizeArg none).2.contents = b.contents ∧
    (b.slice sizeArg none).2.wf := by
  obtain ⟨hsz, hchunks, hnil0, hhead⟩ := id hwf
  set J := b.chunks.flatten with hJ
  have hoffJ : b.offset < J.length := buffer_offset_lt b hwf hc
  set s0 := pyOr sizeArg b.bufLen with hs0
  set size := s0 + b.offset + 0 with hsize
  have happ := popChunks_append b.chunks size 0
  have hds := popChunks_dataSize b.chunks size 0
  have hstop := popChunks_stop b.chunks size 0
  set p := (popChunks b.chunks size 0).1 with hp
  set r := (popChunks b.chunks size 0).2.1 with hr
  set a := (popChunks b.chunks size 0).2.2 with ha
  have hda : a = p.flatten.length := by omega
  have hflat : p.flatten ++ r.flatten = J := by
    rw [← List.flatten_append, happ]
  have hpJ : p.flatten = J.take a := by
    rw [← hflat, hda, List.take_left]
  have hrJ : r.flatten = J.drop a := by
    rw [← hflat, hda, List.drop_left]
  have haJ : a ≤ J.length := by
    rw [← hflat, List.length_append]
    omega
  have hp_ne : p ≠ [] := by
    cases hcc : b.chunks with
    | nil => exact absurd hcc hc
    | cons c0 rest =>
      have := popChunks_pops c0 rest size 0 (by omega)
      rw [← hcc] at this
      rw [hp]
      exact this
  have hhead0 : ∀ c0 l0, p = c0 :: l0 → b.offset < c0.length := by
    intro c0 l0 hc0
    apply hhead c0 (l0 ++ r)
    rw [← happ, hc0, List.cons_append]
  have hres : b.slice sizeArg none
      = (pySlice p.flatten (b.offset + 0) size,
         { b with chunks := p.flatten :: r }) := by
    have hpy0 : pyOr none 0 = 0 := rfl
    simp only [Buffer.slice, hpy0, ← hs0, ← hsize, ← hp, ← hr]
  rw [hres]
  have hbytes : pySlice p.flatten (b.offset + 0) size = b.contents.take s0 := by
    unfold pySlice Buffer.contents
    simp only [Nat.add_zero]
    rw [hpJ, ← hJ, List.drop_take, List.take_take]
    have harg : size - b.offset = s0 := by omega
    rcases hstop with hge | hnil
    · have hmin : min (size - b.offset) (a - b.offset) = s0 := by
        omega
      rw [hmin]
    · have haeq : a = J.length := by
        have hrf : r.flatten = [] := by rw [hnil]; rfl
        rw [hrf] at hrJ
        have hlen := congrArg List.length hrJ
        rw [List.length_drop] at hlen
        simp only [List.length_nil] at hlen
        omega
      have hlen : (J.drop b.offset).length = J.length - b.offset :=
        List.length_drop ..
      by_cases hcase : s0 ≤ J.length - b.offset
      · have hmin : min (size - b.offset) (a - b.offset) = s0 := by
          omega
        rw [hmin]
      · have hmin : min (size - b.offset) (a - b.offset)
            = a - b.offset := by omega
        rw [hmin]
        rw [List.take_of_length_le (by omega), List.take_of_length_le (by omega)]
  refine ⟨hbytes, ?_, ?_, ?_, ?_, ?_⟩
  · show (p.flatten :: r).flatten.drop b.offset = b.contents
    rw [List.flatten_cons, hflat]
    rfl
  · show b.chunksSize = (p.flatten :: r).flatten.length
    rw [List.flatten_cons, hflat]
    exact hsz
  · intro c hcmem
    rcases List.mem_cons.mp hcmem with hcm | hcm
    · subst hcm
      cases hpp : p with
      | nil => exact absurd hpp hp_ne
      | cons c0 l0 =>
        have hc0ne : c0 ≠ [] := by
          apply hchunks
          rw [← happ, hpp, List.cons_append]
          exact List.mem_cons_self ..
        simp [hc0ne]
    · apply hchunks
      rw [← happ]
      exact List.mem_append_right _ hcm
  · intro habs
    cases habs
  · intro c l hcl
    have hcc : p.flatten :: r = c :: l := hcl
    have hc2 : c = p.flatten := by
      injection hcc with h1 _
      exact h1.symm
    subst hc2
    show b.offset < p.flatten.length
    cases hpp : p with
    | nil => exact absurd hpp hp_ne
    | cons c0 l0 =>
      have := hhead0 c0 l0 hpp
      simp only [List.flatten_cons, List.length_append]
      omega

theorem enqueue_spec (b : Buffer) (d : List Nat) (hwf : b.wf) :
    (b.enqueue d).contents = b.contents ++ d ∧ (b.enqueue d).wf := by
  obtain ⟨hsz, hchunks, hnil0, hhead⟩ := id hwf
  by_cases hd : d.isEmpty
  · have hdnil : d = [] := by simpa [List.isEmpty_iff] using hd
    subst hdnil
    have hres : b.enqueue [] = b := by simp [Buffer.enqueue]
    rw [hres]
    exact ⟨by simp, hwf⟩
  · have hdne : d ≠ [] := by simpa [List.isEmpty_iff] using hd
    have hoffle : b.offset ≤ b.chunks.flatten.length := by
      by_cases hc : b.chunks = []
      · rw [hnil0 hc]
        omega
      · exact le_of_lt (buffer_offset_lt b hwf hc)
    have hres : b.enqueue d
        = { b with chunks := b.chunks ++ [d],
                   chunksSize := b.chunksSize + d.length } := by
      simp [Buffer.enqueue, hd]
    rw [hres]
    refine ⟨?_, ?_, ?_, ?_, ?_⟩
    · show (b.chunks ++ [d]).flatten.drop b.offset = b.contents ++ d
      rw [List.flatten_append, List.drop_append_of_le_length hoffle]
      simp [Buffer.contents]
    · show b.chunksSize + d.length = (b.chunks ++ [d]).flatten.length
      rw [List.flatten_append, List.length_append, hsz]
      simp
    · intro c hcmem
      rcases List.mem_append.mp hcmem with hcm | hcm
      · exact hchunks c hcm
      · rw [List.mem_singleton.mp hcm]
        exact hdne
    · intro habs
      rcases List.append_eq_nil.mp habs with ⟨_, h2⟩
      cases h2
    · intro c l hcl
      cases hcc : b.chunks with
      | nil =>
        rw [hcc] at hcl
        simp only [List.nil_append] at hcl
        have hcd : c = d := by
          injection hcl with h1 _
          exact h1.symm
        rw [hcd, hnil0 hcc]
        exact List.length_pos.mpr hdne
      | cons c0 l0 =>
        rw [hcc] at hcl
        simp only [List.cons_append] at hcl
        have hcd : c = c0 := by
          injection hcl with h1 _
          exact h1.symm
        rw [hcd]
        exact hhead c0 l0 hcc

theorem buffer_empty_wf : Buffer.empty.wf := by
  refine ⟨rfl, ?_, fun _ => rfl, ?_⟩
  · intro c hcmem
    cases hcmem
  · intro c l hcl
    cases hcl

theorem payloadsBuffer_spec (ws : List (List Nat)) :
    (payloadsBuffer ws).wf ∧ (payloadsBuffer ws).contents = ws.flatten := by
  suffices h : ∀ (b : Buffer), b.wf →
      (ws.foldl Buffer.enqueue b).wf ∧
      (ws.foldl Buffer.enqueue b).contents = b.contents ++ ws.flatten by
    have := h Buffer.empty buffer_empty_wf
    simpa [payloadsBuffer, Buffer.contents, Buffer.empty] using this
  induction ws with
  | nil =>
    intro b hwf
    constructor
    · simpa using hwf
    · simp
  | cons w ws ih =>
    intro b hwf
    obtain ⟨h1, h2⟩ := enqueue_spec b w hwf
    obtain ⟨h3, h4⟩ := ih (b.enqueue w) h2
    refine ⟨by simpa using h3, ?_⟩
    simp only [List.foldl_cons, h4, h1, List.flatten_cons, List.append_assoc]

theorem flushLoop_drains (bufsize : Nat) (writes : List Nat) :
    ∀ (b : Buffer), b.wf → validWrites bufsize b writes = true →
    (flushLoop bufsize b writes).1 = b.contents := by
  induction writes with
  | nil =>
    intro b hwf hv
    have hc : b.chunks = [] := by
      simpa [validWrites, List.isEmpty_iff] using hv
    simp [flushLoop, Buffer.contents, hc]
  | cons n rest ih =>
    intro b hwf hv
    by_cases hc : b.chunks = []
    · have hcont : b.contents = [] := by simp [Buffer.contents, hc]
      have hisE : b.chunks.isEmpty = true := by simp [hc]
      simp [flushLoop, hisE, hcont]
    · have hisE : b.chunks.isEmpty = false := by
        simpa [List.isEmpty_iff] using hc
      rw [validWrites, hisE] at hv
      simp only [Bool.false_or, Bool.and_eq_true, decide_eq_true_eq] at hv
      obtain ⟨⟨hn1, hn2⟩, hvrest⟩ := hv
      have heff : 1 ≤ pyOr (some bufsize) b.bufLen := by
        cases bufsize with
        | zero =>
          have hoffJ := buffer_offset_lt b hwf hc
          obtain ⟨hsz, _, _, _⟩ := id hwf
          show 1 ≤ b.bufLen
          unfold Buffer.bufLen
          omega
        | succ k =>
          show 1 ≤ k + 1
          omega
      obtain ⟨hblock, hscont, hswf⟩ := slice_spec b (some bufsize) hwf hc heff
      obtain ⟨hdq1, hdq2, hdwf⟩ :=
        dequeue_spec (b.slice (some bufsize) none).2 n hswf hn1
      have hrest := ih _ hdwf hvrest
      show (flushLoop bufsize b (n :: rest)).1 = b.contents
      rw [flushLoop, if_neg (by rw [hisE]; exact Bool.false_ne_true)]
      show (b.slice (some bufsize) none).1.take n
          ++ (flushLoop bufsize
              ((b.slice (some bufsize) none).2.dequeue (some n)).2 rest).1
        = b.contents
    -- the dequeued-buffer tail flushes to the remaining contents
      rw [hrest, hdq2, hscont, hblock, List.take_take]
      have hminn : min n (pyOr (some bufsize) b.bufLen) = n := by
        rw [hblock, List.length_take] at hn2
        omega
      rw [hminn]
      exact List.take_append_drop n b.contents

/-- C6: for every sequence of buffered-stream writes followed by `flush`, the
base stream observes exactly the concatenation of all written payloads in
submission order, for every pattern of partial base writes (each reported
count positive and at most the offered block) that drains the buffer: the
flush loop offers `slice(bufsize)` and advances the write buffer by exactly
the count the base reports. -/
theorem flush_writes_in_order (payloads : List (List Nat)) (writes : List Nat)
    (bufsize : Nat)
    (hv : validWrites bufsize (payloadsBuffer payloads) writes = true) :
    (flushLoop bufsize (payloadsBuffer payloads) writes).1
      = payloads.flatten := by
  obtain ⟨hwf, hcont⟩ := payloadsBuffer_spec payloads
  rw [flushLoop_drains bufsize writes _ hwf hv, hcont]

/-- C6 witness: payloads `[1,2]` and `[3]` flushed with block size 2, where
the base accepts 1 byte of the first offered block and then 2 bytes: the base
observes `[1,2,3]`. -/
theorem flush_writes_in_order_witness :
    validWrites 2 (payloadsBuffer [[1, 2], [3]]) [1, 2] = true ∧
    (flushLoop 2 (payloadsBuffer [[1, 2], [3]]) [1, 2]).1
      = List.flatten [[1, 2], [3]] :=
  ⟨by decide, flush_writes_in_order [[1, 2], [3]] [1, 2] 2 (by decide)⟩

theorem unpack32_pack32 (n : Nat) (h : n < 2 ^ 32) :
    unpack32 (pack32 n) = n := by
  simp only [pack32, unpack32, List.foldl_cons, List.foldl_nil]
  omega

theorem readUntilSizeGo_spec (size : Nat) (hs : 1 ≤ size) :
    ∀ (src : List (List Nat)) (b : Buffer), b.wf →
    size ≤ b.contents.length + src.flatten.length →
    ∃ b2 s2,
      readUntilSizeGo size b src
        = some ((b.contents ++ src.flatten).take size, b2, s2) ∧
      b2.wf ∧
      b2.contents ++ s2.flatten = (b.contents ++ src.flatten).drop size := by
  intro src
  induction src with
  | nil =>
    intro b hwf htot
    have hlen : ¬ b.bufLen < size := by
      rw [buffer_bufLen_eq b hwf]
      simp only [List.flatten_nil, List.length_nil] at htot
      omega
    obtain ⟨h1, h2, h3⟩ := dequeue_spec b size hwf hs
    refine ⟨(b.dequeue (some size)).2, [], ?_, h3, ?_⟩
    · rw [readUntilSizeGo, if_neg hlen, h1]
      simp
    · rw [h2]
      simp
  | cons c rest ih =>
    intro b hwf htot
    by_cases hlen : b.bufLen < size
    · obtain ⟨h1, h2⟩ := enqueue_spec b c hwf
      have htot2 : size ≤ (b.enqueue c).contents.length + rest.flatten.length := by
        rw [h1]
        simp only [List.flatten_cons, List.length_append] at htot ⊢
        omega
      obtain ⟨b2, s2, hgo, hwf2, hdrop⟩ := ih (b.enqueue c) h2 htot2
      refine ⟨b2, s2, ?_, hwf2, ?_⟩
      · rw [readUntilSizeGo, if_pos hlen, hgo, h1]
        simp [List.append_assoc]
      · rw [hdrop, h1]
        simp [List.append_assoc]
    · have hble : size ≤ b.contents.length := by
        rw [buffer_bufLen_eq b hwf] at hlen
        omega
      obtain ⟨h1, h2, h3⟩ := dequeue_spec b size hwf hs
      refine ⟨(b.dequeue (some size)).2, c :: rest, ?_, h3, ?_⟩
      · rw [readUntilSizeGo, if_neg hlen, h1,
           List.take_append_of_le_length hble]
      · rw [h2, List.drop_append_of_le_length hble]

theorem readUntilSize_spec (size : Nat) (src : List (List Nat)) (b : Buffer)
    (hwf : b.wf) (htot : size ≤ b.contents.length + src.flatten.length) :
    ∃ b2 s2,
      readUntilSize b src size
        = some ((b.contents ++ src.flatten).take size, b2, s2) ∧
      b2.wf ∧
      b2.contents ++ s2.flatten = (b.contents ++ src.flatten).drop size := by
  cases size with
  | zero =>
    refine ⟨b, src, ?_, hwf, ?_⟩
    · rw [readUntilSize, if_pos rfl]
      simp
    · simp
  | succ k =>
    have hgo := readUntilSizeGo_spec (k + 1) (by omega) src b hwf htot
    rw [readUntilSize, if_neg (by omega)]
    exact hgo

/-- C7: for every payload below 2^32 bytes, `write_bytes` puts exactly the
4-byte big-endian length prefix followed by the payload on the wire, and
`read_bytes` run against a source delivering exactly those bytes (in any
chunking) returns the payload: length-prefixed framing round-trips. -/
theorem write_read_bytes_roundtrip (payload : List Nat)
    (src : List (List Nat)) (hlen : payload.length < 2 ^ 32)
    (hsrc : src.flatten = (writeBytes Buffer.empty payload).contents) :
    (writeBytes Buffer.empty payload).contents
      = pack32 payload.length ++ payload ∧
    ∃ b2 s2, readBytes Buffer.empty src = some (payload, b2, s2) := by
  have hwire : (writeBytes Buffer.empty payload).contents
      = pack32 payload.length ++ payload := by
    obtain ⟨h1, h2⟩ := enqueue_spec Buffer.empty (pack32 payload.length)
      buffer_empty_wf
    obtain ⟨h3, _⟩ := enqueue_spec (Buffer.empty.enqueue (pack32 payload.length))
      payload h2
    rw [writeBytes, h3, h1]
    have : Buffer.empty.contents = [] := rfl
    rw [this]
    simp
  refine ⟨hwire, ?_⟩
  have hsrc2 : src.flatten = pack32 payload.length ++ payload := by
    rw [hsrc, hwire]
  have hempty : Buffer.empty.contents = [] := rfl
  have hp4 : (pack32 payload.length).length = 4 := rfl
  have htot4 : 4 ≤ Buffer.empty.contents.length + src.flatten.length := by
    rw [hempty, hsrc2, List.length_append, hp4]
    simp only [List.length_nil]
    omega
  obtain ⟨b2, s2, hread4, hwf2, hdrop4⟩ :=
    readUntilSize_spec 4 src Buffer.empty buffer_empty_wf htot4
  have htake4 : (Buffer.empty.contents ++ src.flatten).take 4
      = pack32 payload.length := by
    rw [hempty, List.nil_append, hsrc2, ← hp4, List.take_left]
  have hdrop4' : b2.contents ++ s2.flatten = payload := by
    rw [hdrop4, hempty, List.nil_append, hsrc2, ← hp4, List.drop_left]
  have hRB : readBytes Buffer.empty src
      = readUntilSize b2 s2 payload.length := by
    rw [readBytes, hread4]
    show readUntilSize b2 s2
        (unpack32 ((Buffer.empty.contents ++ src.flatten).take 4))
      = readUntilSize b2 s2 payload.length
    rw [htake4, unpack32_pack32 _ hlen]
  have htotP : payload.length ≤ b2.contents.length + s2.flatten.length := by
    have hlc := congrArg List.length hdrop4'
    rw [List.length_append] at hlc
    omega
  obtain ⟨b3, s3, hreadP, _, _⟩ :=
    readUntilSize_spec payload.length s2 b2 hwf2 htotP
  refine ⟨b3, s3, ?_⟩
  rw [hRB, hreadP, hdrop4', List.take_length]

/-- C7 witness: payload `[7, 8]` framed as `[0,0,0,2,7,8]`, delivered by the
source in three uneven chunks, reads back as `[7, 8]`. -/
theorem write_read_bytes_roundtrip_witness :
    (writeBytes Buffer.empty [7, 8]).contents = pack32 2 ++ [7, 8] ∧
    ∃ b2 s2, readBytes Buffer.empty [[0], [0, 0, 2, 7], [8]]
      = some ([7, 8], b2, s2) :=
  write_read_bytes_roundtrip [7, 8] [[0], [0, 0, 2, 7], [8]]
    (by decide) (by decide)

end Pretzel
